import Mathlib

/-!
Shallow embedding of the `ma-crossover-backtester` repository
(`src/strategy.py`, `src/backtester.py`) and proofs of the specification
claims about it.

Modelling conventions:
* Python floats are modelled as exact rationals (`ℚ`); timestamps as `ℤ`.
* A pandas `Series` is a pair of an index list and a value list
  (`TSeries`); two series are aligned iff the lengths and indices match,
  exactly the checks the Python code performs.
* Python exceptions are modelled with `Except Err`; the error taxonomy of
  the spec (`InvalidParameter`, `MisalignedSeries`, `NotReady`) labels the
  distinct `ValueError` sites of the code.
* Python float floor division `a // b` (for `b ≠ 0`) is `⌊a / b⌋` cast back
  to `ℚ` (`fdiv`).  `a // 0.0` raises `ZeroDivisionError` in Python; the
  embedding is total (`fdiv a 0 = 0`) and the separate predicate
  `divZeroHit` records whether a run ever evaluates `cash // price` with
  `price = 0`.
-/

namespace MACross

/-- Error kinds of the spec's §7 taxonomy, labelling the `ValueError`
raise sites of the code. -/
inductive Err where
  | invalidParameter
  | misalignedSeries
  | notReady
deriving DecidableEq

/-- A time-indexed series: pandas `pd.Series(vals, index=idx)`.  Well-formed
when `idx.length = vals.length`. -/
structure TSeries (α : Type) where
  idx : List ℤ
  vals : List α
deriving DecidableEq

/-- Trade side: the `'type'` field (`'buy'` / `'sell'`) of a trade dict. -/
inductive Side where
  | buy
  | sell
deriving DecidableEq

/-- One entry of `Backtester.trades`:
`{'date': date, 'type': side, 'price': price, 'shares': shares}`.
`shares` is a `ℚ` because the Python value is a float (`cash // price`). -/
structure Trade where
  date : ℤ
  side : Side
  price : ℚ
  shares : ℚ
deriving DecidableEq

/-! ### Strategy module (`src/strategy.py`) -/

/-- Arithmetic mean of a list, `sum / len` (division by zero yields 0,
never reached on the nonempty windows produced below). -/
def mean (xs : List ℚ) : ℚ := xs.sum / xs.length

/-- The rolling window ending at index `i` with at most `p` elements:
`prices[max(0, i-p+1) .. i]`.  Nat subtraction clamps `i+1-p` at 0,
matching `min_periods=1` (the window shrinks at the start). -/
def window (p : ℕ) (prices : List ℚ) (i : ℕ) : List ℚ :=
  (prices.take (i + 1)).drop (i + 1 - p)

/-- `prices.rolling(window=p, min_periods=1).mean()`: pointwise mean of the
shrinking-at-the-start rolling window. -/
def sma (p : ℕ) (prices : List ℚ) : List ℚ :=
  (List.range prices.length).map (fun i => mean (window p prices i))

/-- `calculate_sma(prices, period)`: raises when `period < 1`, otherwise the
rolling mean. -/
def calculate_sma (period : ℤ) (prices : List ℚ) : Except Err (List ℚ) :=
  if period < 1 then .error .invalidParameter
  else .ok (sma period.toNat prices)

/-- Recursive step of `prices.ewm(span=period, adjust=False).mean()`:
`ema[i] = α·price[i] + (1-α)·ema[i-1]`. -/
def emaAux (a : ℚ) (prev : ℚ) : List ℚ → List ℚ
  | [] => []
  | p :: ps => (a * p + (1 - a) * prev) :: emaAux a (a * p + (1 - a) * prev) ps

/-- `prices.ewm(span=period, adjust=False).mean()` with
`α = 2 / (period + 1)`, seeded with the first price. -/
def ema (period : ℕ) (prices : List ℚ) : List ℚ :=
  match prices with
  | [] => []
  | p :: ps => p :: emaAux (2 / ((period : ℚ) + 1)) p ps

/-- `calculate_ema(prices, period)`: raises when `period < 1`, otherwise the
exponentially weighted mean. -/
def calculate_ema (period : ℤ) (prices : List ℚ) : Except Err (List ℚ) :=
  if period < 1 then .error .invalidParameter
  else .ok (ema period.toNat prices)

/-- `diff = fast_ma - slow_ma` (elementwise difference of aligned series). -/
def diffs (fast slow : List ℚ) : List ℚ := List.zipWith (· - ·) fast slow

/-- The signal value at one position, given the previous and current diff.
The code first sets 1 where `prev ≤ 0 ∧ 0 < cur`, then sets -1 where
`0 ≤ prev ∧ cur < 0`; the second assignment would overwrite the first, so
the Sell test is taken first here. -/
def sigOf (prev cur : ℚ) : ℤ :=
  if 0 ≤ prev ∧ cur < 0 then -1
  else if prev ≤ 0 ∧ 0 < cur then 1
  else 0

/-- Walks the diff list carrying the previous diff (`diff.shift(1)`);
`none` models the leading NaN, for which both comparisons are false. -/
def signalsFromDiff : Option ℚ → List ℚ → List ℤ
  | _, [] => []
  | none, cur :: rest => 0 :: signalsFromDiff (some cur) rest
  | some prev, cur :: rest => sigOf prev cur :: signalsFromDiff (some cur) rest

/-- Core of `generate_signals(fast_ma, slow_ma)` on the value lists of two
aligned series. -/
def generate_signals (fast slow : List ℚ) : List ℤ :=
  signalsFromDiff none (diffs fast slow)

/-- `generate_signals` with the alignment checks of the code (same length,
then same index). -/
def generate_signals_checked (fast slow : TSeries ℚ) : Except Err (TSeries ℤ) :=
  if fast.vals.length ≠ slow.vals.length then .error .misalignedSeries
  else if fast.idx ≠ slow.idx then .error .misalignedSeries
  else .ok ⟨fast.idx, generate_signals fast.vals slow.vals⟩

/-! ### Backtester (`src/backtester.py`) -/

/-- Python float floor division `a // b`: `⌊a / b⌋` as a rational.
Total (0 when `b = 0`); `divZeroHit` below tracks the case Python raises. -/
def fdiv (a b : ℚ) : ℚ := (⌊a / b⌋ : ℤ)

/-- The mutable account state of `Backtester.run`:
`position` (0 = flat, 1 = long, an int in the code), `cash`, `shares`. -/
structure AccState where
  position : ℤ
  cash : ℚ
  shares : ℚ
deriving DecidableEq

/-- `Backtester(initial_capital)`: raises when `initial_capital ≤ 0`,
otherwise records the capital. -/
def mkBacktester (initial_capital : ℚ) : Except Err ℚ :=
  if initial_capital ≤ 0 then .error .invalidParameter
  else .ok initial_capital

/-- One iteration of the loop body of `run` at `(date, price, signal)`:
the successor state and the trades appended at this tick.  Note the Buy
branch has no guard on `shares ≥ 1`: with `cash < price` it still sets
`position = 1` and appends a zero-share Buy trade. -/
def stepAcc (s : AccState) (date : ℤ) (price : ℚ) (signal : ℤ) :
    AccState × List Trade :=
  if signal = 1 ∧ s.position = 0 then
    let sh := fdiv s.cash price
    (⟨1, s.cash - sh * price, sh⟩, [⟨date, Side.buy, price, sh⟩])
  else if signal = -1 ∧ s.position = 1 then
    (⟨0, s.cash + s.shares * price, 0⟩, [⟨date, Side.sell, price, s.shares⟩])
  else (s, [])

/-- The account state after each tick (used to phrase the loop invariants;
`run` records `position` and `cash + shares * price` from exactly these
states). -/
def statesList (s : AccState) : List (ℤ × ℚ × ℤ) → List AccState
  | [] => []
  | (d, p, sig) :: rest =>
    (stepAcc s d p sig).1 :: statesList (stepAcc s d p sig).1 rest

/-- The loop of `run` over rows `(date, price, signal)`: final state, trades
appended, recorded positions, recorded portfolio values. -/
def runAux (s : AccState) : List (ℤ × ℚ × ℤ) → AccState × (List Trade × List ℤ × List ℚ)
  | [] => (s, ([], [], []))
  | (d, p, sig) :: rest =>
    let s' := (stepAcc s d p sig).1
    let r := runAux s' rest
    (r.1, ((stepAcc s d p sig).2 ++ r.2.1, s'.position :: r.2.2.1,
      (s'.cash + s'.shares * p) :: r.2.2.2))

/-- True iff the loop ever evaluates `cash // price` with `price = 0`
(a Buy signal in the Flat state at a zero price) — the tick at which the
Python code would raise `ZeroDivisionError`. -/
def divZeroHit (s : AccState) : List (ℤ × ℚ × ℤ) → Bool
  | [] => false
  | (d, p, sig) :: rest =>
    if sig = 1 ∧ s.position = 0 ∧ p = 0 then true
    else divZeroHit (stepAcc s d p sig).1 rest

/-- Pairing of index, price and signal lists: with aligned series,
`signals.loc[date]` at the `i`-th date is the `i`-th signal. -/
def zip3 (idx : List ℤ) (prices : List ℚ) (signals : List ℤ) :
    List (ℤ × ℚ × ℤ) :=
  idx.zip (prices.zip signals)

/-- The dict returned by `run`. -/
structure RunResult where
  portfolio_value : TSeries ℚ
  positions : TSeries ℤ
  trades : List Trade
deriving DecidableEq

/-- `Backtester.run(prices, signals)` on a fresh instance (empty trade log,
position flat, cash = initial capital): alignment checks in code order,
then the simulation loop. -/
def Backtester.run (initial_capital : ℚ) (prices : TSeries ℚ)
    (signals : TSeries ℤ) : Except Err RunResult :=
  if prices.vals.length ≠ signals.vals.length then .error .misalignedSeries
  else if prices.idx ≠ signals.idx then .error .misalignedSeries
  else
    let r := runAux ⟨0, initial_capital, 0⟩ (zip3 prices.idx prices.vals signals.vals)
    .ok ⟨⟨prices.idx, r.2.2.2⟩, ⟨prices.idx, r.2.2.1⟩, r.2.1⟩

/-! ### Metrics (`Backtester.calculate_metrics`) -/

/-- Tail of `portfolio_value.pct_change()`: `v / prev - 1` tick by tick. -/
def pctAux (prev : ℚ) : List ℚ → List ℚ
  | [] => []
  | v :: vs => (v / prev - 1) :: pctAux v vs

/-- `portfolio_value.pct_change().fillna(0)`: the leading NaN becomes 0. -/
def pctChange : List ℚ → List ℚ
  | [] => []
  | v :: vs => 0 :: pctAux v vs

/-- `returns - risk_free_rate / 252`, the excess-return series. -/
def excessReturns (values : List ℚ) (rfr : ℚ) : List ℚ :=
  (pctChange values).map (fun r => r - rfr / 252)

/-- Sample variance (pandas `.std()` is the square root of this, ddof = 1).
The Sharpe ratio of the code is `√252 · mean(excess) / (√(sampleVar excess)
+ 1e-9)`; the square root is irrational, so claims about the Sharpe ratio
are phrased through `mean` and `sampleVar` of the excess returns.  (For a
length-1 series pandas yields NaN where this yields 0; no claim touches
that case.) -/
def sampleVar (xs : List ℚ) : ℚ :=
  (xs.map (fun x => (x - mean xs) ^ 2)).sum / ((xs.length : ℚ) - 1)

/-- Running maximum, `portfolio_value.cummax()`, after the first element. -/
def cummaxAux (m : ℚ) : List ℚ → List ℚ
  | [] => []
  | x :: xs => max m x :: cummaxAux (max m x) xs

/-- `portfolio_value.cummax()`. -/
def cummax : List ℚ → List ℚ
  | [] => []
  | x :: xs => x :: cummaxAux x xs

/-- `(portfolio_value - cummax) / cummax`, the drawdown series. -/
def drawdowns (vals : List ℚ) : List ℚ :=
  List.zipWith (fun v m => (v - m) / m) vals (cummax vals)

/-- Minimum of a list (`series.min()`); 0 on the empty list, which a
successful `calculate_metrics` never passes (the value series is nonempty
whenever a trade was recorded). -/
def listMin : List ℚ → ℚ
  | [] => 0
  | x :: xs => xs.foldl min x

/-- `max_drawdown = drawdown.min()`. -/
def maxDrawdown (vals : List ℚ) : ℚ := listMin (drawdowns vals)

/-- The pairing loop of `calculate_metrics`: walks the trade log two at a
time — pairs `(trades[0], trades[1]), (trades[2], trades[3]), ...` — and
returns `(wins, total_trades)`.  A pair counts as a round trip only when
its first element is a Buy and its second a Sell; a win adds
`(sell.price - buy.price) * buy.shares > 0`.  An odd trailing trade never
forms a pair (`range(1, len, 2)` stops before it). -/
def countPairs : List Trade → ℕ × ℕ
  | b :: s :: rest =>
    let r := countPairs rest
    if b.side = Side.buy ∧ s.side = Side.sell then
      (if 0 < (s.price - b.price) * b.shares then r.1 + 1 else r.1, r.2 + 1)
    else r
  | _ => (0, 0)

/-- `win_rate = wins / total_trades if total_trades > 0 else 0.0`. -/
def winRate (trades : List Trade) : ℚ :=
  if 0 < (countPairs trades).2 then
    ((countPairs trades).1 : ℚ) / ((countPairs trades).2 : ℚ)
  else 0

/-- The metrics dict.  The Sharpe ratio is carried by its rational
components (`mean`/`sampleVar` of `excessReturns`); see `sampleVar`. -/
structure Metrics where
  final_value : ℚ
  max_drawdown : ℚ
  win_rate : ℚ
  total_trades : ℕ
deriving DecidableEq

/-- `calculate_metrics(risk_free_rate)` given the stored
`portfolio_value` (`none` = never run) and trade log: the NotReady check
(`portfolio_value is None or not trades`) comes first in the code, then the
`risk_free_rate < 0` check.  `final_value` is `iloc[-1]`, the last value
(the empty-series fallback 0 is unreachable past the NotReady check for
states produced by `run`). -/
def calculate_metrics (portfolio_value : Option (List ℚ)) (trades : List Trade)
    (rfr : ℚ) : Except Err Metrics :=
  match portfolio_value with
  | none => .error .notReady
  | some vals =>
    if trades = [] then .error .notReady
    else if rfr < 0 then .error .invalidParameter
    else .ok ⟨(vals.getLast?).getD 0, maxDrawdown vals, winRate trades,
      (countPairs trades).2⟩

end MACross

namespace MACross

/-! ### Helper lemmas -/

/-- Dropping all but the last element of a one-longer take isolates the
`i`-th element. -/
theorem take_succ_drop_self (l : List ℚ) :
    ∀ i, i < l.length → (l.take (i + 1)).drop i = [l.getD i 0] := by
  induction l with
  | nil => intro i hi; simp at hi
  | cons x xs ih =>
    intro i hi
    cases i with
    | zero => simp
    | succ j => simpa using ih j (by simpa using hi)

/-- The width-1 window at `i` is the singleton of the `i`-th price. -/
theorem window_one (l : List ℚ) (i : ℕ) (hi : i < l.length) :
    window 1 l i = [l.getD i 0] := by
  simpa [window] using take_succ_drop_self l i hi

/-- The mean of a singleton is its element. -/
theorem mean_singleton (a : ℚ) : mean [a] = a := by
  simp [mean]

/-- `sma` with period 1 is the identity. -/
theorem sma_one (l : List ℚ) : sma 1 l = l := by
  apply List.ext_getElem
  · simp [sma]
  · intro i h1 h2
    have hlen : i < l.length := h2
    have : (sma 1 l)[i] = mean (window 1 l i) := by
      simp [sma]
    rw [this, window_one l i hlen, mean_singleton]
    exact List.getD_eq_getElem l 0 hlen

end MACross

namespace MACross

/-- The `i`-th SMA value is the mean of the window ending at `i`. -/
theorem sma_getD (p : ℕ) (prices : List ℚ) (i : ℕ) (hi : i < prices.length) :
    (sma p prices).getD i 0 = mean (window p prices i) := by
  have hlen : i < (sma p prices).length := by simpa [sma] using hi
  rw [List.getD_eq_getElem _ _ hlen]
  simp [sma]

/-- C6: for every price series and every period `p ≥ 1`,
`simple_moving_average` succeeds and returns a series of the same length as
the input, whose value at index `i` is the mean of
`prices[max(0, i-p+1) .. i]`; for `p = 1` the output equals the input. -/
theorem C6_sma_same_length_mean_window_and_identity (p : ℕ) (prices : List ℚ)
    (hp : 1 ≤ p) :
    calculate_sma (p : ℤ) prices = .ok (sma p prices) ∧
    (sma p prices).length = prices.length ∧
    (∀ i, i < prices.length →
      (sma p prices).getD i 0 = mean (window p prices i)) ∧
    (p = 1 → sma 1 prices = prices) := by
  refine ⟨?_, by simp [sma], fun i hi => sma_getD p prices i hi, fun _ => sma_one prices⟩
  have h1 : ¬((p : ℤ) < 1) := by exact_mod_cast not_lt.mpr hp
  simp [calculate_sma, h1]

/-- C6 witness: the theorem applied to the spec's scenario
`simple_moving_average([1,2,3,4,5], period=3)`. -/
theorem C6_witness :
    (1 ≤ 3) ∧
    (calculate_sma (3 : ℤ) [1, 2, 3, 4, 5] = .ok (sma 3 [1, 2, 3, 4, 5]) ∧
    (sma 3 [(1 : ℚ), 2, 3, 4, 5]).length = [(1 : ℚ), 2, 3, 4, 5].length ∧
    (∀ i, i < [(1 : ℚ), 2, 3, 4, 5].length →
      (sma 3 [(1 : ℚ), 2, 3, 4, 5]).getD i 0 = mean (window 3 [1, 2, 3, 4, 5] i)) ∧
    (3 = 1 → sma 1 [(1 : ℚ), 2, 3, 4, 5] = [1, 2, 3, 4, 5])) :=
  ⟨by decide, C6_sma_same_length_mean_window_and_identity 3 [1, 2, 3, 4, 5] (by decide)⟩

end MACross

namespace MACross

/-- C1: the claim says a Buy signal in state Flat with `cash < price` is a
silent no-op (state stays Flat, no trade appended).  The code has no such
guard: here, with capital 5 and price 10, `shares = 5 // 10 = 0`, yet the
run still transitions to Long (position series `[1]`) and appends a
zero-share Buy trade.  Cash (5) and shares (0) are indeed unchanged, but
the state and the trade log are not. -/
theorem C1_insufficient_cash_buy_goes_long_and_logs_trade :
    Backtester.run 5 ⟨[0], [10]⟩ ⟨[0], [1]⟩ =
      .ok ⟨⟨[0], [5]⟩, ⟨[0], [1]⟩, [⟨0, Side.buy, 10, 0⟩]⟩ := by
  norm_num [Backtester.run, zip3, runAux, stepAcc, fdiv]

/-- C3: the spec's end-to-end scenario.  With prices `[10,12,14,13,11]`,
signals `[0,1,0,-1,0]` and capital 100 the run buys 8 shares at 12 (cash
4), sells at 13 (cash 108), records positions `[0,1,1,0,0]` and values
`[100,100,116,108,108]` with final value 108; the metrics report
`win_rate = 1`, `total_trades = 1`, `max_drawdown = -2/29 ≤ 0`, and the
sample variance of the excess returns is positive, so the Sharpe
denominator `std + 1e-9` is positive and the Sharpe ratio is a finite
real. -/
theorem C3_spec_scenario :
    Backtester.run 100 ⟨[0, 1, 2, 3, 4], [10, 12, 14, 13, 11]⟩
        ⟨[0, 1, 2, 3, 4], [0, 1, 0, -1, 0]⟩ =
      .ok ⟨⟨[0, 1, 2, 3, 4], [100, 100, 116, 108, 108]⟩,
        ⟨[0, 1, 2, 3, 4], [0, 1, 1, 0, 0]⟩,
        [⟨1, Side.buy, 12, 8⟩, ⟨3, Side.sell, 13, 8⟩]⟩ ∧
    statesList ⟨0, 100, 0⟩ (zip3 [0, 1, 2, 3, 4] [10, 12, 14, 13, 11] [0, 1, 0, -1, 0]) =
      [⟨0, 100, 0⟩, ⟨1, 4, 8⟩, ⟨1, 4, 8⟩, ⟨0, 108, 0⟩, ⟨0, 108, 0⟩] ∧
    calculate_metrics (some [100, 100, 116, 108, 108])
        [⟨1, Side.buy, 12, 8⟩, ⟨3, Side.sell, 13, 8⟩] 0 =
      .ok ⟨108, -2/29, 1, 1⟩ ∧
    ((-2/29 : ℚ) ≤ 0 ∧ 0 < sampleVar (excessReturns [100, 100, 116, 108, 108] 0)) := by
  refine ⟨?_, ?_, ?_, by norm_num, ?_⟩
  · norm_num [Backtester.run, zip3, runAux, stepAcc, fdiv]
  · norm_num [statesList, zip3, stepAcc, fdiv]
  · norm_num [calculate_metrics, maxDrawdown, drawdowns, cummax, cummaxAux, listMin,
      winRate, countPairs, max_def, min_def]
    exact fun h => absurd h (List.cons_ne_nil _ _)
  · norm_num [sampleVar, excessReturns, pctChange, pctAux, mean]

end MACross

namespace MACross

/-- `sigOf` yields Buy exactly when the diff crosses from non-positive to
positive. -/
theorem sigOf_eq_one_iff (a b : ℚ) : sigOf a b = 1 ↔ (a ≤ 0 ∧ 0 < b) := by
  unfold sigOf
  split_ifs with h1 h2
  · constructor
    · intro h; exact absurd h (by decide)
    · rintro ⟨-, hb⟩; exact absurd hb (not_lt.mpr h1.2.le)
  · simp [h2]
  · constructor
    · intro h; exact absurd h (by decide)
    · intro h; exact absurd h h2

/-- `sigOf` yields Sell exactly when the diff crosses from non-negative to
negative. -/
theorem sigOf_eq_negOne_iff (a b : ℚ) : sigOf a b = -1 ↔ (0 ≤ a ∧ b < 0) := by
  unfold sigOf
  split_ifs with h1 h2
  · simp [h1]
  · constructor
    · intro h; exact absurd h (by decide)
    · intro h; exact absurd h h1
  · constructor
    · intro h; exact absurd h (by decide)
    · intro h; exact absurd h h1

/-- `sigOf` yields Hold exactly when neither crossing condition holds. -/
theorem sigOf_eq_zero_iff (a b : ℚ) :
    sigOf a b = 0 ↔ (¬(0 ≤ a ∧ b < 0) ∧ ¬(a ≤ 0 ∧ 0 < b)) := by
  unfold sigOf
  split_ifs with h1 h2
  · constructor
    · intro h; exact absurd h (by decide)
    · intro h; exact absurd h1 h.1
  · constructor
    · intro h; exact absurd h (by decide)
    · intro h; exact absurd h2 h.2
  · simp [h1, h2]

/-- The signal list has the length of the diff list. -/
theorem signalsFromDiff_length :
    ∀ (d : List ℚ) (p : Option ℚ), (signalsFromDiff p d).length = d.length := by
  intro d
  induction d with
  | nil => intro p; cases p <;> rfl
  | cons c rest ih =>
    intro p
    cases p <;> simp [signalsFromDiff, ih]

/-- The first signal is always Hold (the shifted diff starts with NaN). -/
theorem signalsFromDiff_getD_zero (d : List ℚ) :
    (signalsFromDiff none d).getD 0 0 = 0 := by
  cases d <;> rfl

/-- Each later signal is `sigOf` of the previous and current diff. -/
theorem signalsFromDiff_getD_succ :
    ∀ (d : List ℚ) (p : Option ℚ) (j : ℕ), j + 1 < d.length →
      (signalsFromDiff p d).getD (j + 1) 0 = sigOf (d.getD j 0) (d.getD (j + 1) 0) := by
  intro d
  induction d with
  | nil => intro p j hj; simp at hj
  | cons c rest ih =>
    intro p j hj
    have htail : ∀ q : Option ℚ, signalsFromDiff q (c :: rest) =
        (match q with | none => (0 : ℤ) | some prev => sigOf prev c) ::
          signalsFromDiff (some c) rest := by
      intro q; cases q <;> rfl
    rw [htail]
    cases j with
    | zero =>
      cases rest with
      | nil => simp at hj
      | cons r0 rr => simp [signalsFromDiff]
    | succ k =>
      have hk : k + 1 < rest.length := by simpa using hj
      simpa using ih (some c) k hk

/-- C2: over aligned inputs, `generate_signals` emits Buy at `i` iff
`diff[i-1] ≤ 0 ∧ diff[i] > 0`, Sell at `i` iff
`diff[i-1] ≥ 0 ∧ diff[i] < 0`, Hold otherwise; the signal at index 0 is
always Hold, and no index carries both Buy and Sell. -/
theorem C2_generate_signals_iff_crossing (fast slow : List ℚ)
    (h : fast.length = slow.length) :
    (generate_signals fast slow).length = fast.length ∧
    (generate_signals fast slow).getD 0 0 = 0 ∧
    (∀ j, j + 1 < fast.length →
      ((generate_signals fast slow).getD (j + 1) 0 = 1 ↔
        ((diffs fast slow).getD j 0 ≤ 0 ∧ 0 < (diffs fast slow).getD (j + 1) 0)) ∧
      ((generate_signals fast slow).getD (j + 1) 0 = -1 ↔
        (0 ≤ (diffs fast slow).getD j 0 ∧ (diffs fast slow).getD (j + 1) 0 < 0)) ∧
      ((generate_signals fast slow).getD (j + 1) 0 = 0 ↔
        (¬(0 ≤ (diffs fast slow).getD j 0 ∧ (diffs fast slow).getD (j + 1) 0 < 0) ∧
         ¬((diffs fast slow).getD j 0 ≤ 0 ∧ 0 < (diffs fast slow).getD (j + 1) 0))) ∧
      ¬((generate_signals fast slow).getD (j + 1) 0 = 1 ∧
        (generate_signals fast slow).getD (j + 1) 0 = -1)) := by
  have hd : (diffs fast slow).length = fast.length := by
    simp [diffs, h]
  refine ⟨?_, signalsFromDiff_getD_zero _, ?_⟩
  · simp [generate_signals, signalsFromDiff_length, hd]
  · intro j hj
    have hj' : j + 1 < (diffs fast slow).length := by rw [hd]; exact hj
    have hs := signalsFromDiff_getD_succ (diffs fast slow) none j hj'
    rw [generate_signals, hs]
    refine ⟨sigOf_eq_one_iff _ _, sigOf_eq_negOne_iff _ _, sigOf_eq_zero_iff _ _, ?_⟩
    rintro ⟨h1, h2⟩
    rw [h1] at h2
    exact absurd h2 (by decide)

/-- C2 witness: the theorem at the spec's scenario
`fast = [1,2,3,2,1]`, `slow = [2,2,2,2,2]`, at index `j + 1 = 2` (the
Buy crossing). -/
theorem C2_witness :
    ((generate_signals [1, 2, 3, 2, 1] [2, 2, 2, 2, 2]).getD (1 + 1) 0 = 1 ↔
      ((diffs [1, 2, 3, 2, 1] [2, 2, 2, 2, 2]).getD 1 0 ≤ 0 ∧
        0 < (diffs [1, 2, 3, 2, 1] [2, 2, 2, 2, 2]).getD (1 + 1) 0)) ∧
    ((generate_signals [1, 2, 3, 2, 1] [2, 2, 2, 2, 2]).getD (1 + 1) 0 = -1 ↔
      (0 ≤ (diffs [1, 2, 3, 2, 1] [2, 2, 2, 2, 2]).getD 1 0 ∧
        (diffs [1, 2, 3, 2, 1] [2, 2, 2, 2, 2]).getD (1 + 1) 0 < 0)) ∧
    ((generate_signals [1, 2, 3, 2, 1] [2, 2, 2, 2, 2]).getD (1 + 1) 0 = 0 ↔
      (¬(0 ≤ (diffs [1, 2, 3, 2, 1] [2, 2, 2, 2, 2]).getD 1 0 ∧
          (diffs [1, 2, 3, 2, 1] [2, 2, 2, 2, 2]).getD (1 + 1) 0 < 0) ∧
       ¬((diffs [1, 2, 3, 2, 1] [2, 2, 2, 2, 2]).getD 1 0 ≤ 0 ∧
          0 < (diffs [1, 2, 3, 2, 1] [2, 2, 2, 2, 2]).getD (1 + 1) 0))) ∧
    ¬((generate_signals [1, 2, 3, 2, 1] [2, 2, 2, 2, 2]).getD (1 + 1) 0 = 1 ∧
      (generate_signals [1, 2, 3, 2, 1] [2, 2, 2, 2, 2]).getD (1 + 1) 0 = -1) :=
  (C2_generate_signals_iff_crossing [1, 2, 3, 2, 1] [2, 2, 2, 2, 2]
    (by decide)).2.2 1 (by decide)

end MACross

namespace MACross

/-! ### Loop invariants of the simulator -/

/-- The account invariant maintained tick by tick when all prices are
positive: cash never goes negative, shares are a non-negative whole
number, positive shares imply the Long flag, and the flag is 0 or 1. -/
def StateOK (s : AccState) : Prop :=
  0 ≤ s.cash ∧ 0 ≤ s.shares ∧ (0 < s.shares → s.position = 1) ∧
    (s.position = 0 ∨ s.position = 1) ∧ ∃ n : ℤ, s.shares = (n : ℚ)

/-- One simulator step preserves the account invariant at a positive
price. -/
theorem stateOK_step (s : AccState) (d : ℤ) (p : ℚ) (sig : ℤ)
    (hs : StateOK s) (hp : 0 < p) : StateOK (stepAcc s d p sig).1 := by
  have hcash := hs.1
  have hsh := hs.2.1
  unfold stepAcc
  split_ifs with h1 h2
  · have hfl : (⌊s.cash / p⌋ : ℚ) * p ≤ s.cash := by
      have h := mul_le_mul_of_nonneg_right (Int.floor_le (s.cash / p)) hp.le
      rwa [div_mul_cancel₀ _ hp.ne'] at h
    have hfl0 : (0 : ℚ) ≤ (⌊s.cash / p⌋ : ℤ) := by
      exact_mod_cast Int.floor_nonneg.mpr (div_nonneg hcash hp.le)
    exact ⟨by simpa [fdiv] using sub_nonneg.mpr hfl, by simpa [fdiv] using hfl0,
      fun _ => rfl, Or.inr rfl, ⟨⌊s.cash / p⌋, rfl⟩⟩
  · exact ⟨add_nonneg hcash (mul_nonneg hsh hp.le), le_refl 0,
      fun h => absurd h (lt_irrefl 0), Or.inl rfl, ⟨0, by simp⟩⟩
  · exact hs

/-- The account invariant holds at every recorded state of a run whose
prices are all positive. -/
theorem stateOK_statesList :
    ∀ (rows : List (ℤ × ℚ × ℤ)) (s : AccState), StateOK s →
      (∀ r ∈ rows, 0 < r.2.1) → ∀ st ∈ statesList s rows, StateOK st := by
  intro rows
  induction rows with
  | nil => intro s _ _ st hst; simp [statesList] at hst
  | cons row rest ih =>
    obtain ⟨d, p, sig⟩ := row
    intro s hs hpos st hst
    have hp : 0 < p := hpos (d, p, sig) (List.mem_cons_self _ _)
    have hs' : StateOK (stepAcc s d p sig).1 := stateOK_step s d p sig hs hp
    rw [statesList] at hst
    rcases List.mem_cons.mp hst with h | h
    · exact h ▸ hs'
    · exact ih (stepAcc s d p sig).1 hs' (fun r hr => hpos r (List.mem_cons_of_mem _ hr)) st h

/-- Integrality of the share count is preserved by every step, with no
assumption on the price (the floor of any rational is an integer). -/
theorem sharesInt_step (s : AccState) (d : ℤ) (p : ℚ) (sig : ℤ)
    (hs : ∃ n : ℤ, s.shares = (n : ℚ)) :
    ∃ n : ℤ, (stepAcc s d p sig).1.shares = (n : ℚ) := by
  unfold stepAcc
  split_ifs with h1 h2
  · exact ⟨⌊s.cash / p⌋, rfl⟩
  · exact ⟨0, by simp⟩
  · exact hs

/-- Every recorded state of any run holds a whole number of shares. -/
theorem sharesInt_statesList :
    ∀ (rows : List (ℤ × ℚ × ℤ)) (s : AccState), (∃ n : ℤ, s.shares = (n : ℚ)) →
      ∀ st ∈ statesList s rows, ∃ n : ℤ, st.shares = (n : ℚ) := by
  intro rows
  induction rows with
  | nil => intro s _ st hst; simp [statesList] at hst
  | cons row rest ih =>
    obtain ⟨d, p, sig⟩ := row
    intro s hs st hst
    have hs' := sharesInt_step s d p sig hs
    rw [statesList] at hst
    rcases List.mem_cons.mp hst with h | h
    · exact h ▸ hs'
    · exact ih (stepAcc s d p sig).1 hs' st h

/-- One state is recorded per input row. -/
theorem statesList_length :
    ∀ (rows : List (ℤ × ℚ × ℤ)) (s : AccState),
      (statesList s rows).length = rows.length := by
  intro rows
  induction rows with
  | nil => intro s; rfl
  | cons row rest ih => obtain ⟨d, p, sig⟩ := row; intro s; simp [statesList, ih]

/-- The recorded position series is the position of each recorded state. -/
theorem runAux_positions :
    ∀ (rows : List (ℤ × ℚ × ℤ)) (s : AccState),
      (runAux s rows).2.2.1 = (statesList s rows).map (fun st => st.position) := by
  intro rows
  induction rows with
  | nil => intro s; rfl
  | cons row rest ih => obtain ⟨d, p, sig⟩ := row; intro s; simp [runAux, statesList, ih]

/-- The recorded value series is `cash + shares * price` of each recorded
state against its row. -/
theorem runAux_values :
    ∀ (rows : List (ℤ × ℚ × ℤ)) (s : AccState),
      (runAux s rows).2.2.2 =
        List.zipWith (fun st (r : ℤ × ℚ × ℤ) => st.cash + st.shares * r.2.1)
          (statesList s rows) rows := by
  intro rows
  induction rows with
  | nil => intro s; rfl
  | cons row rest ih => obtain ⟨d, p, sig⟩ := row; intro s; simp [runAux, statesList, ih]

/-- An in-bounds `getD` is a member of the list. -/
theorem getD_mem {α : Type} (l : List α) (i : ℕ) (d : α) (h : i < l.length) :
    l.getD i d ∈ l := by
  rw [List.getD_eq_getElem _ _ h]
  exact List.getElem_mem h

/-- Componentwise description of `zip3` at an in-bounds index. -/
theorem zip3_getD (idx : List ℤ) (pv : List ℚ) (sv : List ℤ) (i : ℕ)
    (h1 : i < idx.length) (h2 : i < pv.length) (h3 : i < sv.length) :
    (zip3 idx pv sv).getD i (0, 0, 0) = (idx.getD i 0, pv.getD i 0, sv.getD i 0) := by
  have hz : i < (pv.zip sv).length := by simp [List.length_zip]; omega
  have h : i < (zip3 idx pv sv).length := by simp [zip3, List.length_zip]; omega
  rw [List.getD_eq_getElem _ _ h, List.getD_eq_getElem _ _ h1,
    List.getD_eq_getElem _ _ h2, List.getD_eq_getElem _ _ h3]
  unfold zip3
  rw [List.getElem_zip, List.getElem_zip]

/-- The length of `zip3` is the minimum of the three lengths. -/
theorem zip3_length (idx : List ℤ) (pv : List ℚ) (sv : List ℤ) :
    (zip3 idx pv sv).length = min idx.length (min pv.length sv.length) := by
  simp [zip3, List.length_zip]

/-- The price component of any row of `zip3` comes from the price list. -/
theorem zip3_mem_price (idx : List ℤ) (pv : List ℚ) (sv : List ℤ) :
    ∀ r ∈ zip3 idx pv sv, r.2.1 ∈ pv := by
  rintro ⟨d, p, sig⟩ hr
  have h2 : (p, sig) ∈ pv.zip sv := (List.of_mem_zip hr).2
  exact (List.of_mem_zip h2).1

/-- Inversion of a successful `run`: the checks passed and the result is
the loop's output indexed by the price index. -/
theorem run_ok_inv {cap : ℚ} {prices : TSeries ℚ} {signals : TSeries ℤ}
    {res : RunResult} (h : Backtester.run cap prices signals = .ok res) :
    prices.vals.length = signals.vals.length ∧ prices.idx = signals.idx ∧
    res = ⟨⟨prices.idx,
        (runAux ⟨0, cap, 0⟩ (zip3 prices.idx prices.vals signals.vals)).2.2.2⟩,
      ⟨prices.idx,
        (runAux ⟨0, cap, 0⟩ (zip3 prices.idx prices.vals signals.vals)).2.2.1⟩,
      (runAux ⟨0, cap, 0⟩ (zip3 prices.idx prices.vals signals.vals)).2.1⟩ := by
  unfold Backtester.run at h
  split_ifs at h with h1 h2
  · exact ⟨not_not.mp h1, not_not.mp h2, (Except.ok.injEq _ _).mp h |>.symm⟩

end MACross

namespace MACross

/-- The per-tick account states of a run, from the checked inputs. -/
def runStates (cap : ℚ) (prices : TSeries ℚ) (signals : TSeries ℤ) : List AccState :=
  statesList ⟨0, cap, 0⟩ (zip3 prices.idx prices.vals signals.vals)

/-- C4: for every run over aligned series with strictly positive prices,
the recorded portfolio value at each tick is `cash + shares * price[t]`
(for the cash and shares after processing `t`), cash stays non-negative,
positive shares imply the recorded position is Long (1), and the value and
position series carry exactly the price series' index and length. -/
theorem C4_run_value_cash_position_invariants (cap : ℚ) (prices : TSeries ℚ)
    (signals : TSeries ℤ) (res : RunResult)
    (hwf : prices.idx.length = prices.vals.length) (hcap : 0 < cap)
    (hpos : ∀ p ∈ prices.vals, 0 < p)
    (hrun : Backtester.run cap prices signals = .ok res) :
    res.portfolio_value.idx = prices.idx ∧ res.positions.idx = prices.idx ∧
    res.portfolio_value.vals.length = prices.vals.length ∧
    res.positions.vals.length = prices.vals.length ∧
    (∀ t, t < prices.vals.length →
      res.portfolio_value.vals.getD t 0 =
        ((runStates cap prices signals).getD t ⟨0, 0, 0⟩).cash +
          ((runStates cap prices signals).getD t ⟨0, 0, 0⟩).shares *
            prices.vals.getD t 0 ∧
      0 ≤ ((runStates cap prices signals).getD t ⟨0, 0, 0⟩).cash ∧
      (0 < ((runStates cap prices signals).getD t ⟨0, 0, 0⟩).shares →
        res.positions.vals.getD t 0 = 1)) := by
  obtain ⟨hlen, hidx, hres⟩ := run_ok_inv hrun
  subst hres
  have hrowlen : (zip3 prices.idx prices.vals signals.vals).length =
      prices.vals.length := by
    rw [zip3_length]; omega
  have hstlen : (statesList ⟨0, cap, 0⟩ (zip3 prices.idx prices.vals signals.vals)).length =
      (zip3 prices.idx prices.vals signals.vals).length :=
    statesList_length _ _
  refine ⟨rfl, rfl, ?_, ?_, ?_⟩
  · rw [runAux_values]
    simp [List.length_zipWith, hstlen, hrowlen]
  · rw [runAux_positions]
    simp [hstlen, hrowlen]
  · intro t ht
    have ht_rows : t < (zip3 prices.idx prices.vals signals.vals).length := by omega
    have ht_states : t < (statesList ⟨0, cap, 0⟩
        (zip3 prices.idx prices.vals signals.vals)).length := by omega
    have hok : StateOK ((runStates cap prices signals).getD t ⟨0, 0, 0⟩) := by
      refine stateOK_statesList _ _ ?_ ?_ _ (getD_mem _ t _ ht_states)
      · exact ⟨hcap.le, le_refl 0, fun h => absurd h (lt_irrefl 0), Or.inl rfl, ⟨0, by simp⟩⟩
      · intro r hr
        exact hpos r.2.1 (zip3_mem_price _ _ _ r hr)
    have hzw : t < (List.zipWith
        (fun st (r : ℤ × ℚ × ℤ) => st.cash + st.shares * r.2.1)
        (statesList ⟨0, cap, 0⟩ (zip3 prices.idx prices.vals signals.vals))
        (zip3 prices.idx prices.vals signals.vals)).length := by
      simp [List.length_zipWith]; omega
    refine ⟨?_, hok.1, ?_⟩
    · show (runAux ⟨0, cap, 0⟩ (zip3 prices.idx prices.vals signals.vals)).2.2.2.getD t 0 = _
      rw [runAux_values, List.getD_eq_getElem _ _ hzw, List.getElem_zipWith]
      rw [runStates, List.getD_eq_getElem _ _ ht_states]
      have hprice : (zip3 prices.idx prices.vals signals.vals).getD t (0, 0, 0) =
          (prices.idx.getD t 0, prices.vals.getD t 0, signals.vals.getD t 0) :=
        zip3_getD _ _ _ t (by omega) ht (by omega)
      rw [List.getD_eq_getElem _ _ ht_rows] at hprice
      rw [hprice]
    · intro hsh
      show (runAux ⟨0, cap, 0⟩ (zip3 prices.idx prices.vals signals.vals)).2.2.1.getD t 0 = 1
      have hmap : t < ((statesList ⟨0, cap, 0⟩
          (zip3 prices.idx prices.vals signals.vals)).map
            (fun st => st.position)).length := by
        simp [hstlen, hrowlen]; omega
      rw [runAux_positions, List.getD_eq_getElem _ _ hmap, List.getElem_map]
      have h1 := hok.2.2.1 hsh
      rw [runStates, List.getD_eq_getElem _ _ ht_states] at h1
      exact h1

/-- C4 witness: the theorem at a one-tick Hold run with capital 100 and
price 10, projected at tick 0. -/
theorem C4_witness :
    (RunResult.portfolio_value ⟨⟨[0], [100]⟩, ⟨[0], [0]⟩, []⟩).idx = [(0 : ℤ)] ∧
    ((RunResult.portfolio_value ⟨⟨[0], [100]⟩, ⟨[0], [0]⟩, []⟩).vals.getD 0 0 =
      ((runStates 100 ⟨[0], [10]⟩ ⟨[0], [0]⟩).getD 0 ⟨0, 0, 0⟩).cash +
        ((runStates 100 ⟨[0], [10]⟩ ⟨[0], [0]⟩).getD 0 ⟨0, 0, 0⟩).shares *
          (TSeries.vals ⟨[0], [10]⟩).getD 0 0 ∧
    0 ≤ ((runStates 100 ⟨[0], [10]⟩ ⟨[0], [0]⟩).getD 0 ⟨0, 0, 0⟩).cash ∧
    (0 < ((runStates 100 ⟨[0], [10]⟩ ⟨[0], [0]⟩).getD 0 ⟨0, 0, 0⟩).shares →
      (RunResult.positions ⟨⟨[0], [100]⟩, ⟨[0], [0]⟩, []⟩).vals.getD 0 0 = 1)) :=
  ⟨(C4_run_value_cash_position_invariants 100 ⟨[0], [10]⟩ ⟨[0], [0]⟩
      ⟨⟨[0], [100]⟩, ⟨[0], [0]⟩, []⟩ (by decide) (by decide) (by decide)
      (by simp [Backtester.run, zip3, runAux, stepAcc])).1,
   (C4_run_value_cash_position_invariants 100 ⟨[0], [10]⟩ ⟨[0], [0]⟩
      ⟨⟨[0], [100]⟩, ⟨[0], [0]⟩, []⟩ (by decide) (by decide) (by decide)
      (by simp [Backtester.run, zip3, runAux, stepAcc])).2.2.2.2 0 (by decide)⟩

end MACross

namespace MACross

/-- The side expected after `expected` in an alternating log. -/
def flipSide : Side → Side
  | .buy => .sell
  | .sell => .buy

/-- `altFrom expected ts` holds iff `ts` alternates sides
`expected, flip expected, expected, ...`. -/
def altFrom (expected : Side) : List Trade → Bool
  | [] => true
  | t :: rest => if t.side = expected then altFrom (flipSide expected) rest else false

/-- The trades appended by the loop alternate, starting with Buy from the
Flat state and with Sell from the Long state. -/
theorem altFrom_runAux :
    ∀ (rows : List (ℤ × ℚ × ℤ)) (s : AccState), (s.position = 0 ∨ s.position = 1) →
      altFrom (if s.position = 0 then Side.buy else Side.sell) (runAux s rows).2.1 = true := by
  intro rows
  induction rows with
  | nil => intro s _; rfl
  | cons row rest ih =>
    obtain ⟨d, p, sig⟩ := row
    intro s hs01
    by_cases hb : sig = 1 ∧ s.position = 0
    · simp only [runAux, stepAcc, if_pos hb, if_pos hb.2]
      rw [List.singleton_append, altFrom, if_pos rfl]
      have h := ih ⟨1, s.cash - fdiv s.cash p * p, fdiv s.cash p⟩ (Or.inr rfl)
      simpa [flipSide] using h
    · by_cases hsell : sig = -1 ∧ s.position = 1
      · have hpos0 : ¬(s.position = 0) := by rw [hsell.2]; decide
        simp only [runAux, stepAcc, if_neg hb, if_pos hsell, if_neg hpos0]
        rw [List.singleton_append, altFrom, if_pos rfl]
        have h := ih ⟨0, s.cash + s.shares * p, 0⟩ (Or.inl rfl)
        simpa [flipSide] using h
      · simp only [runAux, stepAcc, if_neg hb, if_neg hsell]
        rw [List.nil_append]
        exact ih s hs01

/-- C5: the trade log returned by any single run on a fresh simulator
strictly alternates Buy, Sell, Buy, Sell, ... starting with Buy. -/
theorem C5_trade_log_alternates (cap : ℚ) (prices : TSeries ℚ)
    (signals : TSeries ℤ) (res : RunResult)
    (hrun : Backtester.run cap prices signals = .ok res) :
    altFrom Side.buy res.trades = true := by
  obtain ⟨-, -, hres⟩ := run_ok_inv hrun
  subst hres
  have h := altFrom_runAux (zip3 prices.idx prices.vals signals.vals) ⟨0, cap, 0⟩
    (Or.inl rfl)
  simpa using h

/-- C5 witness: the theorem at the one-tick Hold run (empty trade log). -/
theorem C5_witness :
    altFrom Side.buy (RunResult.trades ⟨⟨[0], [100]⟩, ⟨[0], [0]⟩, []⟩) = true :=
  C5_trade_log_alternates 100 ⟨[0], [10]⟩ ⟨[0], [0]⟩ ⟨⟨[0], [100]⟩, ⟨[0], [0]⟩, []⟩
    (by simp [Backtester.run, zip3, runAux, stepAcc])

/-- A run over rows with strictly positive prices never evaluates
`cash // price` at a zero price. -/
theorem divZeroHit_false :
    ∀ (rows : List (ℤ × ℚ × ℤ)) (s : AccState), (∀ r ∈ rows, 0 < r.2.1) →
      divZeroHit s rows = false := by
  intro rows
  induction rows with
  | nil => intro s _; rfl
  | cons row rest ih =>
    obtain ⟨d, p, sig⟩ := row
    intro s hpos
    rw [divZeroHit, if_neg]
    · exact ih _ (fun r hr => hpos r (List.mem_cons_of_mem _ hr))
    · rintro ⟨-, -, hp0⟩
      have h := hpos (d, p, sig) (List.mem_cons_self _ _)
      rw [hp0] at h
      exact absurd h (lt_irrefl 0)

/-- C10: the buy step computes shares by floor division, so every recorded
state holds a whole number of shares; with all prices strictly positive the
division-by-zero tick is unreachable, while non-negative prices alone do
not rule it out (a zero price under a Buy signal in the Flat state reaches
it, where Python would raise `ZeroDivisionError`). -/
theorem C10_floor_division_shares_and_zero_price (cap : ℚ) :
    (∀ (rows : List (ℤ × ℚ × ℤ)) (st : AccState),
      st ∈ statesList ⟨0, cap, 0⟩ rows → ∃ n : ℤ, st.shares = (n : ℚ)) ∧
    (∀ rows : List (ℤ × ℚ × ℤ), (∀ r ∈ rows, 0 < r.2.1) →
      divZeroHit ⟨0, cap, 0⟩ rows = false) ∧
    (∃ rows : List (ℤ × ℚ × ℤ), (∀ r ∈ rows, 0 ≤ r.2.1) ∧
      divZeroHit ⟨0, cap, 0⟩ rows = true) := by
  refine ⟨?_, ?_, ⟨[(0, 0, 1)], ?_, ?_⟩⟩
  · intro rows st hst
    exact sharesInt_statesList rows ⟨0, cap, 0⟩ ⟨0, by simp⟩ st hst
  · intro rows hpos
    exact divZeroHit_false rows _ hpos
  · intro r hr
    rw [List.mem_singleton] at hr
    subst hr
    decide
  · rw [divZeroHit, if_pos ⟨rfl, rfl, rfl⟩]

/-- C10 witness: the integrality of the (unchanged) zero share count after
a one-tick Hold run, and the unreachability of the division by zero on a
one-tick positive-price input. -/
theorem C10_witness :
    (∃ n : ℤ, (AccState.mk 0 100 0).shares = (n : ℚ)) ∧
    divZeroHit ⟨0, 100, 0⟩ [(0, 1, 0)] = false ∧
    (∃ rows : List (ℤ × ℚ × ℤ), (∀ r ∈ rows, 0 ≤ r.2.1) ∧
      divZeroHit ⟨0, 100, 0⟩ rows = true) :=
  ⟨(C10_floor_division_shares_and_zero_price 100).1 [(0, 1, 0)] ⟨0, 100, 0⟩
      (by simp [statesList, stepAcc]),
   (C10_floor_division_shares_and_zero_price 100).2.1 [(0, 1, 0)] (by decide),
   (C10_floor_division_shares_and_zero_price 100).2.2⟩

end MACross

namespace MACross

/-- Drawdowns fused with the running maximum they are measured against. -/
def ddAux (m : ℚ) : List ℚ → List ℚ
  | [] => []
  | x :: xs => (x - max m x) / max m x :: ddAux (max m x) xs

/-- Zipping values with their running maxima computes `ddAux`. -/
theorem zipWith_cummaxAux :
    ∀ (xs : List ℚ) (m : ℚ),
      List.zipWith (fun v mm => (v - mm) / mm) xs (cummaxAux m xs) = ddAux m xs := by
  intro xs
  induction xs with
  | nil => intro m; rfl
  | cons x xs ih => intro m; simp [cummaxAux, ddAux, ih]

/-- The drawdown series starts with 0 and continues with `ddAux`. -/
theorem drawdowns_cons (x : ℚ) (xs : List ℚ) :
    drawdowns (x :: xs) = 0 :: ddAux x xs := by
  unfold drawdowns cummax
  rw [List.zipWith_cons_cons, zipWith_cummaxAux, sub_self, zero_div]

/-- Against a positive running maximum over positive values, every
drawdown is non-positive. -/
theorem ddAux_nonpos :
    ∀ (xs : List ℚ) (m : ℚ), 0 < m → (∀ x ∈ xs, 0 < x) →
      ∀ d ∈ ddAux m xs, d ≤ 0 := by
  intro xs
  induction xs with
  | nil => intro m _ _ d hd; simp [ddAux] at hd
  | cons x xs ih =>
    intro m hm hpos d hd
    have hm' : 0 < max m x := lt_of_lt_of_le hm (le_max_left m x)
    rw [ddAux] at hd
    rcases List.mem_cons.mp hd with h | h
    · rw [h]
      exact div_nonpos_of_nonpos_of_nonneg (sub_nonpos.mpr (le_max_right m x)) hm'.le
    · exact ih (max m x) hm' (fun y hy => hpos y (List.mem_cons_of_mem _ hy)) d h

/-- If the values sit in a non-decreasing chain above the seed, every
drawdown is exactly 0. -/
theorem ddAux_zero_of_chain :
    ∀ (xs : List ℚ) (m : ℚ), List.Chain (· ≤ ·) m xs →
      ∀ d ∈ ddAux m xs, d = 0 := by
  intro xs
  induction xs with
  | nil => intro m _ d hd; simp [ddAux] at hd
  | cons x xs ih =>
    intro m hch d hd
    rcases hch with _ | ⟨hmx, hch'⟩
    have hmax : max m x = x := max_eq_right hmx
    rw [ddAux, hmax] at hd
    rcases List.mem_cons.mp hd with h | h
    · rw [h, sub_self, zero_div]
    · exact ih x hch' d h

/-- Conversely, all-zero drawdowns over positive values force a
non-decreasing chain. -/
theorem chain_of_ddAux_zero :
    ∀ (xs : List ℚ) (m : ℚ), 0 < m → (∀ x ∈ xs, 0 < x) →
      (∀ d ∈ ddAux m xs, d = 0) → List.Chain (· ≤ ·) m xs := by
  intro xs
  induction xs with
  | nil => intro m _ _ _; exact List.Chain.nil
  | cons x xs ih =>
    intro m hm hpos hz
    have hm' : 0 < max m x := lt_of_lt_of_le hm (le_max_left m x)
    have h0 := hz _ (by rw [ddAux]; exact List.mem_cons_self _ _)
    have hnum : x - max m x = 0 := by
      rcases div_eq_zero_iff.mp h0 with h | h
      · exact h
      · exact absurd h hm'.ne'
    have hxeq : x = max m x := by linarith
    have hmx : m ≤ x := hxeq ▸ le_max_left m x
    refine List.Chain.cons hmx (ih x (hpos x (List.mem_cons_self _ _))
      (fun y hy => hpos y (List.mem_cons_of_mem _ hy)) ?_)
    intro d hd
    exact hz d (by rw [ddAux]; exact List.mem_cons_of_mem _ (hxeq ▸ hd))

/-- `foldl min` is bounded by its seed. -/
theorem foldl_min_le_init : ∀ (xs : List ℚ) (a : ℚ), xs.foldl min a ≤ a := by
  intro xs
  induction xs with
  | nil => intro a; exact le_refl a
  | cons x xs ih =>
    intro a
    exact le_trans (ih (min a x)) (min_le_left a x)

/-- `foldl min` is bounded by every list element. -/
theorem foldl_min_le_mem :
    ∀ (xs : List ℚ) (a y : ℚ), y ∈ xs → xs.foldl min a ≤ y := by
  intro xs
  induction xs with
  | nil => intro a y hy; simp at hy
  | cons x xs ih =>
    intro a y hy
    rw [List.foldl_cons]
    rcases List.mem_cons.mp hy with h | h
    · rw [h]
      exact le_trans (foldl_min_le_init xs (min a x)) (min_le_right a x)
    · exact ih (min a x) y h

/-- `foldl min` lands on the seed or on a list element. -/
theorem foldl_min_mem : ∀ (xs : List ℚ) (a : ℚ), xs.foldl min a ∈ a :: xs := by
  intro xs
  induction xs with
  | nil => intro a; simp [List.foldl]
  | cons x xs ih =>
    intro a
    rw [List.foldl_cons]
    rcases List.mem_cons.mp (ih (min a x)) with h1 | h1
    · rcases min_choice a x with hm | hm
      · rw [h1, hm]; exact List.mem_cons_self _ _
      · rw [h1, hm]; exact List.mem_cons_of_mem _ (List.mem_cons_self _ _)
    · exact List.mem_cons_of_mem _ (List.mem_cons_of_mem _ h1)

end MACross

namespace MACross

/-- C7: for every non-empty, strictly positive portfolio-value series, the
maximum drawdown (minimum over `t` of
`(value[t] - max(value[0..t])) / max(value[0..t])`) is non-positive, and
it is 0 exactly when the value series is non-decreasing throughout. -/
theorem C7_max_drawdown_nonpos_iff_nondecreasing (vals : List ℚ)
    (hne : vals ≠ []) (hpos : ∀ v ∈ vals, 0 < v) :
    maxDrawdown vals ≤ 0 ∧
    (maxDrawdown vals = 0 ↔ List.Chain' (· ≤ ·) vals) := by
  rcases vals with _ | ⟨v, vs⟩
  · exact absurd rfl hne
  have hv : 0 < v := hpos v (List.mem_cons_self _ _)
  have hvs : ∀ x ∈ vs, 0 < x := fun x hx => hpos x (List.mem_cons_of_mem _ hx)
  have hdd : maxDrawdown (v :: vs) = (ddAux v vs).foldl min 0 := by
    rw [maxDrawdown, drawdowns_cons]
    rfl
  refine ⟨by rw [hdd]; exact foldl_min_le_init _ 0, ?_, ?_⟩
  · intro h0
    show List.Chain (· ≤ ·) v vs
    apply chain_of_ddAux_zero vs v hv hvs
    intro d hd
    have hle : d ≤ 0 := ddAux_nonpos vs v hv hvs d hd
    have hge : maxDrawdown (v :: vs) ≤ d := by
      rw [hdd]
      exact foldl_min_le_mem _ 0 d hd
    rw [h0] at hge
    linarith
  · intro hch
    have hz := ddAux_zero_of_chain vs v hch
    rw [hdd]
    rcases List.mem_cons.mp (foldl_min_mem (ddAux v vs) 0) with h | h
    · exact h
    · exact hz _ h

/-- C7 witness: the theorem at the singleton value series `[1]`. -/
theorem C7_witness :
    maxDrawdown [1] ≤ 0 ∧
    (maxDrawdown [1] = 0 ↔ List.Chain' (· ≤ ·) [(1 : ℚ)]) :=
  C7_max_drawdown_nonpos_iff_nondecreasing [1] (by decide) (by decide)

end MACross

namespace MACross

/-- The pairing loop never counts more wins than round trips. -/
theorem countPairs_wins_le :
    ∀ ts : List Trade, (countPairs ts).1 ≤ (countPairs ts).2 := by
  intro ts
  induction ts using countPairs.induct with
  | case1 b s rest hbs ih =>
    simp only [countPairs, if_pos hbs]
    split_ifs with hwin <;> omega
  | case2 b s rest hbs ih =>
    simp only [countPairs, if_neg hbs]
    exact ih
  | case3 l h =>
    cases l with
    | nil => exact le_refl 0
    | cons x t =>
      cases t with
      | nil => exact le_refl 0
      | cons y r => exact absurd rfl (fun hc => h x y r hc)

/-- Appending one trade to an even-length log changes neither the win
count nor the round-trip count: the odd trailing trade is never paired. -/
theorem countPairs_append_single_of_even :
    ∀ (ts : List Trade) (t : Trade), ts.length % 2 = 0 →
      countPairs (ts ++ [t]) = countPairs ts := by
  intro ts
  induction ts using countPairs.induct with
  | case1 b s rest hbs ih =>
    intro t hlen
    have hr : rest.length % 2 = 0 := by
      simp only [List.length_cons] at hlen
      omega
    simp only [List.cons_append, countPairs, List.append_eq]
    rw [ih t hr]
  | case2 b s rest hbs ih =>
    intro t hlen
    have hr : rest.length % 2 = 0 := by
      simp only [List.length_cons] at hlen
      omega
    simp only [List.cons_append, countPairs, List.append_eq]
    rw [ih t hr]
  | case3 l h =>
    intro t hlen
    cases l with
    | nil => rfl
    | cons x xs =>
      cases xs with
      | nil => simp at hlen
      | cons y r => exact absurd rfl (fun hc => h x y r hc)

/-- C8: trades are paired by consecutive indices; a pair is a round trip
only when it is (Buy, Sell), a win adds `(sell.price - buy.price) *
buy.shares > 0` (all per `countPairs`); the win rate lies in `[0, 1]` and
is 0 when there are no round trips, and an odd trailing trade is excluded
from pairing and from the returned `total_trades`. -/
theorem C8_win_rate_bounds_and_pairing (trades : List Trade) :
    (countPairs trades).1 ≤ (countPairs trades).2 ∧
    0 ≤ winRate trades ∧ winRate trades ≤ 1 ∧
    ((countPairs trades).2 = 0 → winRate trades = 0) ∧
    (∀ (ts : List Trade) (t : Trade), ts.length % 2 = 0 →
      countPairs (ts ++ [t]) = countPairs ts) := by
  have hle := countPairs_wins_le trades
  refine ⟨hle, ?_, ?_, ?_, fun ts t h => countPairs_append_single_of_even ts t h⟩
  · unfold winRate
    split_ifs with h
    · exact div_nonneg (Nat.cast_nonneg _) (Nat.cast_nonneg _)
    · exact le_refl 0
  · unfold winRate
    split_ifs with h
    · rw [div_le_one (by exact_mod_cast h)]
      exact_mod_cast hle
    · exact zero_le_one
  · intro h0
    unfold winRate
    rw [if_neg]
    omega

/-- C8 witness: the theorem at the round-trip log of the spec scenario,
with the odd-trailing-trade fact applied to the empty log plus one Buy
and the zero-round-trip fact applied to the empty log. -/
theorem C8_witness :
    (countPairs [⟨1, Side.buy, 12, 8⟩, ⟨3, Side.sell, 13, 8⟩]).1 ≤
      (countPairs [⟨1, Side.buy, 12, 8⟩, ⟨3, Side.sell, 13, 8⟩]).2 ∧
    0 ≤ winRate [⟨1, Side.buy, 12, 8⟩, ⟨3, Side.sell, 13, 8⟩] ∧
    winRate [⟨1, Side.buy, 12, 8⟩, ⟨3, Side.sell, 13, 8⟩] ≤ 1 ∧
    winRate [] = 0 ∧
    countPairs ([] ++ [⟨0, Side.buy, 1, 1⟩]) = countPairs [] :=
  ⟨(C8_win_rate_bounds_and_pairing [⟨1, Side.buy, 12, 8⟩, ⟨3, Side.sell, 13, 8⟩]).1,
   (C8_win_rate_bounds_and_pairing [⟨1, Side.buy, 12, 8⟩, ⟨3, Side.sell, 13, 8⟩]).2.1,
   (C8_win_rate_bounds_and_pairing [⟨1, Side.buy, 12, 8⟩, ⟨3, Side.sell, 13, 8⟩]).2.2.1,
   (C8_win_rate_bounds_and_pairing []).2.2.2.1 rfl,
   (C8_win_rate_bounds_and_pairing []).2.2.2.2 [] ⟨0, Side.buy, 1, 1⟩ (by decide)⟩

end MACross

namespace MACross

/-- C9 counterexample: `calculate_metrics` called with a negative
risk-free rate on a fresh (never-run) instance raises the NotReady error,
not InvalidParameter — the readiness check comes first in the code, so the
claim's "in every such case" fails. -/
theorem C9_counterexample_not_ready_precedence :
    calculate_metrics none [] (-1) = .error .notReady ∧
    Err.notReady ≠ Err.invalidParameter :=
  ⟨rfl, by decide⟩

/-- C9 (amended): construction with initial capital ≤ 0, and the moving
averages with period < 1, fail with InvalidParameter in every case; a call
of `calculate_metrics` with a negative risk-free rate fails with
InvalidParameter in every case in which the backtest has been run (value
series recorded and trade log non-empty) — otherwise the NotReady check
fires first. -/
theorem C9_invalid_parameter_checks :
    (∀ c : ℚ, c ≤ 0 → mkBacktester c = .error .invalidParameter) ∧
    (∀ (period : ℤ) (prices : List ℚ), period < 1 →
      calculate_sma period prices = .error .invalidParameter) ∧
    (∀ (period : ℤ) (prices : List ℚ), period < 1 →
      calculate_ema period prices = .error .invalidParameter) ∧
    (∀ (vals : List ℚ) (trades : List Trade) (rfr : ℚ), trades ≠ [] → rfr < 0 →
      calculate_metrics (some vals) trades rfr = .error .invalidParameter) := by
  refine ⟨?_, ?_, ?_, ?_⟩
  · intro c hc
    rw [mkBacktester, if_pos hc]
  · intro period prices hp
    rw [calculate_sma, if_pos hp]
  · intro period prices hp
    rw [calculate_ema, if_pos hp]
  · intro vals trades rfr hne hrfr
    rw [calculate_metrics]
    rw [if_neg hne, if_pos hrfr]

/-- C9 witness: the amended theorem at capital 0, period 0, and a
negative risk-free rate on a ready instance. -/
theorem C9_witness :
    mkBacktester 0 = .error .invalidParameter ∧
    calculate_sma 0 [] = .error .invalidParameter ∧
    calculate_ema 0 [] = .error .invalidParameter ∧
    calculate_metrics (some [100]) [⟨0, Side.buy, 1, 1⟩] (-1) =
      .error .invalidParameter :=
  ⟨C9_invalid_parameter_checks.1 0 (by decide),
   C9_invalid_parameter_checks.2.1 0 [] (by decide),
   C9_invalid_parameter_checks.2.2.1 0 [] (by decide),
   C9_invalid_parameter_checks.2.2.2 [100] [⟨0, Side.buy, 1, 1⟩] (-1)
     (by decide) (by decide)⟩

end MACross
